import Mathlib

/-!
# Shallow embedding of the vex in-memory vector store

This file embeds the core of the `uzqw/vex` repository in Lean 4 and proves
properties of the embedded code.

Modelling conventions:

* `float32` values are idealised as exact rationals (`ℚ`); floating-point
  rounding is out of scope.
* `math.Sqrt` (Go standard library) is kept abstract: every definition that
  needs it takes a square-root function `sq : ℚ → ℚ` as a parameter.  The
  only facts any theorem assumes about `sq` are stated as explicit
  hypotheses (typically `∀ x, 0 ≤ x → (sq x = 0 ↔ x = 0)`, which holds for
  the real square root).  Concrete witnesses instantiate `sq` with the
  identity function, which satisfies these hypotheses.
* Go strings are modelled as `String` (store keys) or `List Char` (byte
  streams of the wire protocol); for the ASCII data handled here a `Char`
  stands for one byte.
* Go maps (`map[string][]float32`) are modelled as association lists with
  map semantics: `Set` replaces in place or appends, `Delete` removes the
  key, lookup finds the binding.
* `container/heap` (Go standard library) is modelled by its documented
  contract — a min-heap ordered by `TopKHeap.Less`, i.e. by `Similarity`:
  the heap is represented canonically as a list sorted ascending by
  similarity, `heap.Push` inserts preserving order, `heap.Pop` removes the
  root (the minimum), and `(*h)[0]` is the root, the head of the list.
  The out-of-bounds access `(*h)[0]` on an empty heap (a Go panic) is
  modelled by `Option`: `none` marks the panic.
* Concurrency is sequentialised: the sharded store is operated on by one
  caller at a time, and `Search`'s fan-out over shards is modelled as a
  scan of the shards in index order.
-/

/-- The two recoverable error kinds of `internal/vector` (`vector.go`):
`ErrDimensionMismatch` and `ErrZeroVector`.  `internal/storage` wraps them
in messages; only the kind matters here. -/
inductive VErr where
  | dimensionMismatch : VErr
  | zeroVector : VErr
deriving DecidableEq, Repr

namespace vec

/-- Sum of squares `Σ v_i²`, the loop inside `Magnitude` (`vector.go`,
`Magnitude`). -/
def sumSquares (v : List ℚ) : ℚ :=
  (v.map (fun x => x * x)).sum

/-- `vector.Magnitude`: `sqrt(Σ v_i²)`, with the square root abstracted as
the parameter `sq`. -/
def Magnitude (sq : ℚ → ℚ) (v : List ℚ) : ℚ :=
  sq (sumSquares v)

/-- `vector.Normalize`: fails with `ErrZeroVector` when the magnitude is 0,
else divides every element by the magnitude. -/
def Normalize (sq : ℚ → ℚ) (v : List ℚ) : Except VErr (List ℚ) :=
  let m := Magnitude sq v
  if m = 0 then .error .zeroVector
  else .ok (v.map (fun x => x / m))

/-- `vector.DotProduct`: fails with `ErrDimensionMismatch` when the lengths
differ, else returns `Σ a_i·b_i`. -/
def DotProduct (a b : List ℚ) : Except VErr ℚ :=
  if a.length ≠ b.length then .error .dimensionMismatch
  else .ok ((List.zipWith (· * ·) a b).sum)

/-- `vector.SearchResult`: key plus similarity score.  The `Distance` field
of the Go struct is carried along; the search path never writes it (it stays
at its zero value). -/
structure SearchResult where
  Key : String
  Similarity : ℚ
  Distance : ℚ
deriving DecidableEq, Repr

/-- `heap.Push` on a `vector.TopKHeap` under the canonical sorted-list
representation: insert keeping the list sorted ascending by `Similarity`
(`TopKHeap.Less` compares `Similarity` with `<`). -/
def heapInsert (r : SearchResult) : List SearchResult → List SearchResult
  | [] => [r]
  | x :: xs => if r.Similarity < x.Similarity then r :: x :: xs
               else x :: heapInsert r xs

end vec

/-- One shard's `data` map, as an association list. -/
abbrev ShardMap : Type := List (String × List ℚ)

/-- `storage.Storage`: 32 shards (a list of shard maps; every reachable
state has exactly `ShardCount` of them) and the store-wide dimension.
`dim` is the atomic `Int32`; it only ever holds 0 or a vector length, so it
is carried as `ℕ`. -/
structure Storage where
  shards : List ShardMap
  dim : ℕ
deriving DecidableEq

namespace Storage

/-- `storage.ShardCount`. -/
def ShardCount : ℕ := 32

/-- One step of FNV-1a (`hash/fnv`, 32-bit): xor in the byte, multiply by
the FNV prime, modulo 2³². -/
def fnvStep (h : ℕ) (b : ℕ) : ℕ :=
  ((h ^^^ b) * 16777619) % 2 ^ 32

/-- 32-bit FNV-1a over the key's bytes (`Storage.getShard` feeds the key to
`fnv.New32a`).  Keys here are ASCII, so a character's code point is its
byte. -/
def fnv32a (key : String) : ℕ :=
  key.data.foldl (fun h c => fnvStep h c.toNat) 2166136261

/-- The shard index of a key: `h.Sum32() % ShardCount`. -/
def shardIdx (key : String) : ℕ :=
  fnv32a key % ShardCount

/-- `storage.New`: `ShardCount` empty shards, dimension unset (0). -/
def New : Storage :=
  ⟨List.replicate ShardCount ([] : ShardMap), 0⟩

/-- Map update with Go-map semantics: replace the binding if the key is
present, append it otherwise (`shard.data[key] = normalized`). -/
def mapSet (m : ShardMap) (key : String) (v : List ℚ) : ShardMap :=
  if (List.lookup key m).isSome then
    m.map (fun p => if p.1 = key then (key, v) else p)
  else m ++ [(key, v)]

/-- Replace shard `i` of the shard list by `f` of its current value. -/
def updateShard (shards : List ShardMap) (i : ℕ) (f : ShardMap → ShardMap) :
    List ShardMap :=
  shards.set i (f (shards.getD i []))

/-- `Storage.Set`.  Returns the call's result together with the store it
leaves behind.  Faithful to the source order: first the dimension
compare-and-set (which runs — and can fix an unset dimension — before any
validation), then the length check, then normalisation, then the write into
the owning shard. -/
def Set (sq : ℚ → ℚ) (st : Storage) (key : String) (values : List ℚ) :
    Except VErr Unit × Storage :=
  let dim := if st.dim = 0 then values.length else st.dim
  if values.length ≠ dim then
    (.error .dimensionMismatch, { st with dim := dim })
  else
    match vec.Normalize sq values with
    | .error e => (.error e, { st with dim := dim })
    | .ok normalized =>
        (.ok (), { shards := updateShard st.shards (shardIdx key)
                              (fun m => mapSet m key normalized),
                   dim := dim })

/-- `Storage.Get`: look the key up in its owning shard. -/
def Get (st : Storage) (key : String) : Option (List ℚ) :=
  List.lookup key (st.shards.getD (shardIdx key) [])

/-- `Storage.Delete`: report whether the key was present, and remove it. -/
def Delete (st : Storage) (key : String) : Bool × Storage :=
  let sh := st.shards.getD (shardIdx key) []
  let exists_ := (List.lookup key sh).isSome
  if exists_ then
    (true, { st with shards := updateShard st.shards (shardIdx key)
                       (fun m => m.filter (fun p => p.1 ≠ key)) })
  else (false, st)

/-- `Storage.Count`: sum of the shard sizes. -/
def Count (st : Storage) : ℕ :=
  (st.shards.map List.length).sum

/-- `Storage.Clear`: every shard's map replaced by an empty one, then the
dimension reset to 0. -/
def Clear (st : Storage) : Storage :=
  ⟨st.shards.map (fun _ => ([] : ShardMap)), 0⟩

/-- The scan of one shard inside `Storage.Search`: similarity of every
stored entry against the normalised query via `DotProduct`; the first
`DotProduct` error aborts. -/
def scanShard (nq : List ℚ) : ShardMap → Except VErr (List vec.SearchResult)
  | [] => .ok []
  | (key, v) :: rest =>
      match vec.DotProduct nq v with
      | .error e => .error e
      | .ok s =>
          match scanShard nq rest with
          | .error e => .error e
          | .ok rs => .ok (⟨key, s, 0⟩ :: rs)

/-- The fan-out over all shards, sequentialised in shard order; the results
are concatenated (the single consumer drains the channel). -/
def scanShards (nq : List ℚ) :
    List ShardMap → Except VErr (List vec.SearchResult)
  | [] => .ok []
  | sh :: rest =>
      match scanShard nq sh with
      | .error e => .error e
      | .ok a =>
          match scanShards nq rest with
          | .error e => .error e
          | .ok b => .ok (a ++ b)

/-- The top-k merge loop of `Storage.Search` over the candidate stream:
if the heap holds fewer than `k` results, push; otherwise compare the
candidate against the root `(*h)[0]` and replace the root if the candidate
is strictly better.  Reading the root of an empty heap is the Go panic,
modelled as `none`. -/
def mergeFold (k : ℕ) :
    List vec.SearchResult → List vec.SearchResult →
      Option (List vec.SearchResult)
  | h, [] => some h
  | h, r :: rs =>
    if h.length < k then mergeFold k (vec.heapInsert r h) rs
    else match h with
      | [] => none
      | root :: t =>
          if root.Similarity < r.Similarity then
            mergeFold k (vec.heapInsert r t) rs
          else mergeFold k (root :: t) rs

/-- `Storage.Search`: normalise the query (fails on a zero vector), scan all
shards (fails on a dimension mismatch with a stored entry), fold the
candidates into the top-k heap, then drain the heap back-to-front — under
the sorted-list heap representation the drained, descending-similarity
result is the reverse of the heap. -/
def Search (sq : ℚ → ℚ) (st : Storage) (query : List ℚ) (k : ℕ) :
    Except VErr (Option (List vec.SearchResult)) :=
  match vec.Normalize sq query with
  | .error e => .error e
  | .ok nq =>
      match scanShards nq st.shards with
      | .error e => .error e
      | .ok cands => .ok ((mergeFold k [] cands).map List.reverse)

/-- The mutating operations, for the reachability relation.  `Get`, `Count`
and `Search` read the store without changing it (they are pure functions of
the state above), so they do not appear as state transitions. -/
inductive Reachable (sq : ℚ → ℚ) : Storage → Prop where
  | new : Reachable sq New
  | set (st : Storage) (key : String) (values : List ℚ) :
      Reachable sq st → Reachable sq (Set sq st key values).2
  | del (st : Storage) (key : String) :
      Reachable sq st → Reachable sq (Delete st key).2
  | clear (st : Storage) :
      Reachable sq st → Reachable sq (Clear st)

end Storage

namespace protocol

/-- Reader-side failures of `internal/protocol` (`resp.go`): end of stream
(`io` errors from the buffered reader), `ErrInvalidProtocol`,
`ErrInvalidLength`, and the error produced by `readValue` for a RESP error
frame (`errors.New(line)`), which carries the frame's text. -/
inductive RErr where
  | eof : RErr
  | invalidProtocol : RErr
  | invalidLength : RErr
  | respError (msg : List Char) : RErr
deriving DecidableEq, Repr

/-- Decimal digits read left to right, the accumulation both `strconv.Atoi`
and the float parser perform. -/
def digitsToNat (ds : List Char) : ℕ :=
  ds.foldl (fun a c => 10 * a + (c.toNat - 48)) 0

/-- `strconv.Itoa` for a non-negative value: standard decimal notation.
(The writers only ever format lengths and counts, which are `≥ 0`.) -/
def natToDec (n : ℕ) : List Char :=
  if n < 10 then [Nat.digitChar n]
  else natToDec (n / 10) ++ [Nat.digitChar (n % 10)]
decreasing_by exact Nat.div_lt_self (by omega) (by omega)

/-- `strconv.Atoi`: an optional single sign followed by at least one digit
(integer overflow is out of scope: values are exact). -/
def atoi (s : List Char) : Option ℤ :=
  match s with
  | [] => none
  | c :: t =>
      if c = '+' then
        if t ≠ [] ∧ t.all Char.isDigit then some (digitsToNat t) else none
      else if c = '-' then
        if t ≠ [] ∧ t.all Char.isDigit then some (-(digitsToNat t : ℤ))
        else none
      else
        if (c :: t).all Char.isDigit then some (digitsToNat (c :: t))
        else none

/-- `bufio.Reader.ReadString('\n')` without the terminator: the stream up
to the first `'\n'`, plus the remainder; `none` when no `'\n'` arrives
(end of stream). -/
def splitAtNL : List Char → Option (List Char × List Char)
  | [] => none
  | c :: t =>
      if c = '\n' then some ([], t)
      else (splitAtNL t).map (fun p => (c :: p.1, p.2))

/-- `RESPReader.readLine`: read through the first `'\n'`, then demand the
line ends in `"\r\n"` (`len(line) < 2 || line[len(line)-2] != '\r'` is an
`ErrInvalidProtocol`); returns the line without the CRLF. -/
def readLine (s : List Char) : Except RErr (List Char × List Char) :=
  match splitAtNL s with
  | none => .error .eof
  | some (l, rest) =>
      if l.getLast? = some '\r' then .ok (l.dropLast, rest)
      else .error .invalidProtocol

/-- `io.ReadFull` of `n` bytes: `none` when the stream is shorter. -/
def readChunk : ℕ → List Char → Option (List Char × List Char)
  | 0, s => some ([], s)
  | _ + 1, [] => none
  | n + 1, c :: t => (readChunk n t).map (fun p => (c :: p.1, p.2))

/-- `RESPReader.readBulkString`: length line, `-1` sentinel for the null
bulk string (decoded as the empty string), reject other negative lengths,
then read `length` content bytes and check the trailing CRLF. -/
def readBulkString (s : List Char) : Except RErr (List Char × List Char) :=
  match readLine s with
  | .error e => .error e
  | .ok (line, rest) =>
      match atoi line with
      | none => .error .invalidLength
      | some len =>
          if len = -1 then .ok ([], rest)
          else if len < 0 then .error .invalidLength
          else
            match readChunk len.toNat rest with
            | none => .error .eof
            | some (content, r₁) =>
                match r₁ with
                | '\r' :: '\n' :: r₂ => .ok (content, r₂)
                | [] => .error .eof
                | [_] => .error .eof
                | _ => .error .invalidProtocol

/-- `RESPReader.readValue`: dispatch on the type byte; a `-` frame's line
becomes a failure carrying the line as its message. -/
def readValue (s : List Char) : Except RErr (List Char × List Char) :=
  match s with
  | [] => .error .eof
  | c :: t =>
      if c = '$' then readBulkString t
      else if c = '+' then readLine t
      else if c = '-' then
        match readLine t with
        | .error e => .error e
        | .ok (line, _) => .error (.respError line)
      else if c = ':' then readLine t
      else .error .invalidProtocol

/-- The element loop of `RESPReader.readArray`. -/
def readN : ℕ → List Char → Except RErr (List (List Char) × List Char)
  | 0, s => .ok ([], s)
  | n + 1, s =>
      match readValue s with
      | .error e => .error e
      | .ok (v, s₁) =>
          match readN n s₁ with
          | .error e => .error e
          | .ok (vs, s₂) => .ok (v :: vs, s₂)

/-- `RESPReader.readArray`: count line (rejecting non-numeric or negative
counts), then that many values. -/
def readArray (s : List Char) : Except RErr (List (List Char) × List Char) :=
  match readLine s with
  | .error e => .error e
  | .ok (line, rest) =>
      match atoi line with
      | none => .error .invalidLength
      | some count =>
          if count < 0 then .error .invalidLength
          else readN count.toNat rest

/-- `RESPReader.ReadCommand`: an array is decoded element-wise; a bare
scalar type byte is unread and decoded by `readValue` as a single-element
command; anything else is an `ErrInvalidProtocol`. -/
def ReadCommand (s : List Char) :
    Except RErr (List (List Char) × List Char) :=
  match s with
  | [] => .error .eof
  | c :: t =>
      if c = '*' then readArray t
      else if c = '+' ∨ c = '-' ∨ c = ':' ∨ c = '$' then
        match readValue s with
        | .error e => .error e
        | .ok (v, rest) => .ok ([v], rest)
      else .error .invalidProtocol

/-- The CRLF line terminator. -/
def CRLF : List Char := ['\r', '\n']

/-- `RESPWriter.WriteBulkString`: `$<length>\r\n<bytes>\r\n`. -/
def WriteBulkString (s : List Char) : List Char :=
  '$' :: (natToDec s.length ++ CRLF ++ s ++ CRLF)

/-- `RESPWriter.WriteArray`: `*<count>\r\n` followed by each element as a
bulk string (the buffered writer concatenates them). -/
def WriteArray (els : List (List Char)) : List Char :=
  '*' :: (natToDec els.length ++ CRLF ++ (els.map WriteBulkString).flatten)

/-- Failures of `FastVectorParser`: missing brackets, or a piece that is
not a floating-point literal — the error carries the offending token. -/
inductive VecParseErr where
  | brackets : VecParseErr
  | badElement (token : List Char) : VecParseErr
deriving DecidableEq, Repr

/-- `strings.TrimSpace`: drop whitespace from both ends. -/
def trimChars (s : List Char) : List Char :=
  (((s.dropWhile Char.isWhitespace).reverse).dropWhile Char.isWhitespace).reverse

/-- `strings.Split(s, ",")`: the comma-separated pieces (one more piece
than there are commas; `splitComma [] = [[]]` just as `Split("", ",")` is
`[""]`). -/
def splitComma : List Char → List (List Char)
  | [] => [[]]
  | c :: t =>
      if c = ',' then [] :: splitComma t
      else
        match splitComma t with
        | [] => [[c]]
        | p :: ps => (c :: p) :: ps

/-- Exponent suffix of a float literal (`e`/`E`, optional sign, digits),
applied to the mantissa `m`; `some m` when there is no suffix, `none` on
trailing garbage. -/
def parseExpPart (m : ℚ) : List Char → Option ℚ
  | [] => some m
  | e :: t =>
      if e = 'e' ∨ e = 'E' then
        match t with
        | '+' :: u =>
            if u ≠ [] ∧ u.all Char.isDigit then
              some (m * (10 : ℚ) ^ (digitsToNat u : ℤ)) else none
        | '-' :: u =>
            if u ≠ [] ∧ u.all Char.isDigit then
              some (m * (10 : ℚ) ^ (-(digitsToNat u : ℤ))) else none
        | u =>
            if u ≠ [] ∧ u.all Char.isDigit then
              some (m * (10 : ℚ) ^ (digitsToNat u : ℤ)) else none
      else none

/-- `strconv.ParseFloat` restricted to its decimal forms (optional sign,
digits with an optional fractional part, optional exponent), idealised over
`ℚ`; the special forms (`inf`, `nan`, hex floats) are elided — no claim
depends on them, and both the code-side and the spec-side parser below use
this same literal grammar. -/
def parseFloatQ (s : List Char) : Option ℚ :=
  let (sgn, s₁) : ℚ × List Char :=
    match s with
    | '+' :: u => (1, u)
    | '-' :: u => (-1, u)
    | u => (1, u)
  let ip := s₁.takeWhile Char.isDigit
  let r₁ := s₁.dropWhile Char.isDigit
  match r₁ with
  | '.' :: r₂ =>
      let fp := r₂.takeWhile Char.isDigit
      let r₃ := r₂.dropWhile Char.isDigit
      if ip = [] ∧ fp = [] then none
      else
        parseExpPart
          (sgn * ((digitsToNat ip : ℚ) + (digitsToNat fp : ℚ) / 10 ^ fp.length))
          r₃
  | _ =>
      if ip = [] then none
      else parseExpPart (sgn * (digitsToNat ip : ℚ)) r₁

/-- The piece loop of `FastVectorParser`: trim each piece, skip empty ones,
fail on the first piece that is not a float literal (naming it), collect
the values in order. -/
def parseParts : List (List Char) → Except VecParseErr (List ℚ)
  | [] => .ok []
  | p :: ps =>
      let q := trimChars p
      if q = [] then parseParts ps
      else
        match parseFloatQ q with
        | none => .error (.badElement q)
        | some v => (parseParts ps).map (fun vs => v :: vs)

/-- `protocol.FastVectorParser` (`resp.go`): trim, check the surrounding
brackets (`len(s) < 2 || s[0] != '[' || s[len(s)-1] != ']'`), take the
bracket interior, trim it, return the empty vector for an empty interior,
else split on commas and parse the pieces. -/
def FastVectorParser (s : List Char) : Except VecParseErr (List ℚ) :=
  let t := trimChars s
  if t.length < 2 ∨ t.head? ≠ some '[' ∨ t.getLast? ≠ some ']' then
    .error .brackets
  else
    let inner := trimChars ((t.drop 1).dropLast)
    if inner = [] then .ok []
    else parseParts (splitComma inner)

/-- Parse a list of already-trimmed, non-empty pieces, failing on the first
piece that is not a float literal, with that token in the error. -/
def specParsePieces : List (List Char) → Except VecParseErr (List ℚ)
  | [] => .ok []
  | p :: ps =>
      match parseFloatQ p with
      | none => .error (.badElement p)
      | some v => (specParsePieces ps).map (fun vs => v :: vs)

/-- The vector-literal grammar as the specification words it: after
trimming, the parse fails unless the string starts with `'['` and ends with
`']'`; the bracket interior is split on commas, each piece is trimmed,
empty pieces are silently skipped, and every surviving piece must be a
float literal, the first offender failing the whole parse with that token
named. -/
def fastVectorParserFromSpec (s : List Char) : Except VecParseErr (List ℚ) :=
  let t := trimChars s
  if t.head? = some '[' ∧ t.getLast? = some ']' then
    specParsePieces
      (((splitComma (trimChars ((t.drop 1).dropLast))).map trimChars).filter
        (fun p => p ≠ []))
  else .error .brackets

end protocol

/-! ## Derived definitions used in the statements -/

/-- Equality of `Except` results is decidable (needed to evaluate the
model on concrete inputs). -/
instance {ε α : Type} [DecidableEq ε] [DecidableEq α] :
    DecidableEq (Except ε α) := fun a b =>
  match a, b with
  | .error e, .error f =>
      if h : e = f then .isTrue (by rw [h]) else .isFalse (by simp [h])
  | .ok x, .ok y =>
      if h : x = y then .isTrue (by rw [h]) else .isFalse (by simp [h])
  | .error _, .ok _ => .isFalse (by simp)
  | .ok _, .error _ => .isFalse (by simp)

/-- The identity function as a concrete instance of the abstract square
root: it satisfies `∀ x, 0 ≤ x → (sq x = 0 ↔ x = 0)`, the only property any
theorem assumes of `sq`, and it is exact on the magnitude-1 vectors used in
the concrete witnesses. -/
def sqId : ℚ → ℚ := fun x => x

/-- The shard holding key `"a"` (FNV-1a maps `"a"` to shard 12). -/
def shA : ShardMap := [("a", [1, 0])]

/-- The shard holding key `"b"` (FNV-1a maps `"b"` to shard 5). -/
def shB : ShardMap := [("b", [1, 0])]

/-- The shard list of a store holding only `"a" ↦ [1,0]`. -/
def exAshards : List ShardMap :=
  [[], [], [], [], [], [], [], [], [], [], [], [], shA, [], [], [],
   [], [], [], [], [], [], [], [], [], [], [], [], [], [], [], []]

/-- A store holding one entry `"a" ↦ [1,0]`, dimension fixed to 2 — the
result of `Set "a" [1,0]` on a fresh store (see `Set_a_New`). -/
def exA : Storage := ⟨exAshards, 2⟩

/-- The shard list of a store holding `"a" ↦ [1,0]` and `"b" ↦ [1,0]`. -/
def exABshards : List ShardMap :=
  [[], [], [], [], [], shB, [], [], [], [], [], [], shA, [], [], [],
   [], [], [], [], [], [], [], [], [], [], [], [], [], [], [], []]

/-- A store holding two entries with identical vectors (an exact similarity
tie) — the result of `Set "b" [1,0]` on `exA` (see `Set_b_exA`). -/
def exAB : Storage := ⟨exABshards, 2⟩

/-! ## Vector-math lemmas -/

theorem vec.sumSquares_nil : vec.sumSquares [] = 0 := rfl

theorem vec.sumSquares_cons (x : ℚ) (v : List ℚ) :
    vec.sumSquares (x :: v) = x * x + vec.sumSquares v := by
  simp [vec.sumSquares]

theorem vec.sumSquares_nonneg (v : List ℚ) : 0 ≤ vec.sumSquares v := by
  induction v with
  | nil => simp [vec.sumSquares_nil]
  | cons x v ih =>
      rw [vec.sumSquares_cons]
      have := mul_self_nonneg x
      linarith

theorem vec.sumSquares_eq_zero_of_forall {v : List ℚ}
    (h : ∀ x ∈ v, x = 0) : vec.sumSquares v = 0 := by
  induction v with
  | nil => rfl
  | cons x v ih =>
      rw [vec.sumSquares_cons, h x (by simp), ih (fun y hy => h y (by simp [hy]))]
      ring

theorem vec.length_pos_of_sumSquares_ne_zero {v : List ℚ}
    (h : vec.sumSquares v ≠ 0) : v.length ≠ 0 := by
  intro hlen
  exact h (by rw [List.length_eq_zero.mp hlen, vec.sumSquares_nil])

theorem vec.Normalize_ok_iff {sq : ℚ → ℚ} {v : List ℚ} :
    (∃ w, vec.Normalize sq v = .ok w) ↔ sq (vec.sumSquares v) ≠ 0 := by
  unfold vec.Normalize vec.Magnitude
  by_cases h : sq (vec.sumSquares v) = 0 <;> simp [h]

theorem vec.Normalize_error {sq : ℚ → ℚ} {v : List ℚ}
    (h : sq (vec.sumSquares v) = 0) :
    vec.Normalize sq v = .error .zeroVector := by
  unfold vec.Normalize vec.Magnitude
  simp [h]

theorem vec.Normalize_ok {sq : ℚ → ℚ} {v : List ℚ}
    (h : sq (vec.sumSquares v) ≠ 0) :
    vec.Normalize sq v = .ok (v.map (fun x => x / sq (vec.sumSquares v))) := by
  unfold vec.Normalize vec.Magnitude
  simp [h]

theorem vec.Normalize_ok_length {sq : ℚ → ℚ} {v w : List ℚ}
    (h : vec.Normalize sq v = .ok w) : w.length = v.length := by
  unfold vec.Normalize vec.Magnitude at h
  by_cases h0 : sq (vec.sumSquares v) = 0
  · simp [h0] at h
  · simp [h0] at h
    rw [← h]
    simp

theorem vec.Normalize_ok_ne_zero {sq : ℚ → ℚ} {v w : List ℚ}
    (h : vec.Normalize sq v = .ok w) : sq (vec.sumSquares v) ≠ 0 := by
  exact vec.Normalize_ok_iff.mp ⟨w, h⟩

/-! ## Heap-model lemmas -/

theorem vec.heapInsert_length (r : vec.SearchResult)
    (h : List vec.SearchResult) :
    (vec.heapInsert r h).length = h.length + 1 := by
  induction h with
  | nil => rfl
  | cons x xs ih =>
      unfold vec.heapInsert
      by_cases hlt : r.Similarity < x.Similarity <;> simp [hlt, ih]

theorem vec.heapInsert_mem {y r : vec.SearchResult}
    {h : List vec.SearchResult} (hy : y ∈ vec.heapInsert r h) :
    y = r ∨ y ∈ h := by
  induction h with
  | nil =>
      left
      simpa [vec.heapInsert] using hy
  | cons x xs ih =>
      unfold vec.heapInsert at hy
      by_cases hlt : r.Similarity < x.Similarity
      · simp [hlt] at hy
        rcases hy with hy | hy | hy <;> simp [hy]
      · simp [hlt] at hy
        rcases hy with hy | hy
        · simp [hy]
        · rcases ih hy with hy' | hy' <;> simp [hy']

theorem vec.heapInsert_pairwise {r : vec.SearchResult}
    {h : List vec.SearchResult}
    (hs : h.Pairwise (fun a b => a.Similarity ≤ b.Similarity)) :
    (vec.heapInsert r h).Pairwise (fun a b => a.Similarity ≤ b.Similarity) := by
  induction h with
  | nil => simp [vec.heapInsert]
  | cons x xs ih =>
      rw [List.pairwise_cons] at hs
      unfold vec.heapInsert
      by_cases hlt : r.Similarity < x.Similarity
      · rw [if_pos hlt, List.pairwise_cons]
        refine ⟨?_, List.pairwise_cons.mpr hs⟩
        intro y hy
        rcases List.mem_cons.mp hy with hy | hy
        · rw [hy]; exact le_of_lt hlt
        · exact le_trans (le_of_lt hlt) (hs.1 y hy)
      · rw [if_neg hlt, List.pairwise_cons]
        refine ⟨?_, ih hs.2⟩
        intro y hy
        rcases vec.heapInsert_mem hy with hy' | hy'
        · rw [hy']; exact le_of_not_lt hlt
        · exact hs.1 y hy'

/-! ## Case lemmas for `Storage.Set` -/

theorem Storage.Set_mismatch {sq : ℚ → ℚ} {st : Storage} {key : String}
    {values : List ℚ} (hd : st.dim ≠ 0) (hlen : values.length ≠ st.dim) :
    Storage.Set sq st key values = (.error .dimensionMismatch, st) := by
  simp only [Storage.Set, if_neg hd]
  rw [if_pos hlen]

theorem Storage.Set_norm_error {sq : ℚ → ℚ} {st : Storage} {key : String}
    {values : List ℚ} {e : VErr}
    (hlen : st.dim = 0 ∨ values.length = st.dim)
    (hnorm : vec.Normalize sq values = .error e) :
    Storage.Set sq st key values =
      (.error e, { st with dim := if st.dim = 0 then values.length else st.dim }) := by
  rcases hlen with h0 | hl
  · simp only [Storage.Set, if_pos h0, hnorm]
    simp
  · by_cases h0 : st.dim = 0
    · simp only [Storage.Set, if_pos h0, hnorm]
      simp
    · simp only [Storage.Set, if_neg h0, if_neg (not_ne_iff.mpr hl), hnorm]

theorem Storage.Set_ok {sq : ℚ → ℚ} {st : Storage} {key : String}
    {values nv : List ℚ}
    (hlen : st.dim = 0 ∨ values.length = st.dim)
    (hnorm : vec.Normalize sq values = .ok nv) :
    Storage.Set sq st key values =
      (.ok (), ⟨Storage.updateShard st.shards (Storage.shardIdx key)
                  (fun m => Storage.mapSet m key nv),
                if st.dim = 0 then values.length else st.dim⟩) := by
  rcases hlen with h0 | hl
  · simp only [Storage.Set, if_pos h0, hnorm]
    simp
  · by_cases h0 : st.dim = 0
    · simp only [Storage.Set, if_pos h0, hnorm]
      simp
    · simp only [Storage.Set, if_neg h0, if_neg (not_ne_iff.mpr hl), hnorm]

/-! ## Membership plumbing for the sharded store -/

theorem Storage.mem_getD_shards {shards : List ShardMap} {i : ℕ}
    {p : String × List ℚ} (hp : p ∈ shards.getD i []) :
    ∃ sh ∈ shards, p ∈ sh := by
  rcases lt_or_ge i shards.length with h | h
  · rw [List.getD_eq_getElem _ _ h] at hp
    exact ⟨shards[i], List.getElem_mem h, hp⟩
  · rw [List.getD_eq_default _ _ h] at hp
    exact absurd hp (List.not_mem_nil p)

theorem Storage.mem_of_mem_updateShard {shards : List ShardMap}
    {i : ℕ} {f : ShardMap → ShardMap} {sh : ShardMap}
    (h : sh ∈ Storage.updateShard shards i f) :
    sh = f (shards.getD i []) ∨ sh ∈ shards := by
  unfold Storage.updateShard at h
  rcases List.mem_or_eq_of_mem_set h with h' | h'
  · exact Or.inr h'
  · exact Or.inl h'

theorem Storage.mem_mapSet {m : ShardMap} {key : String}
    {v : List ℚ} {q : String × List ℚ} (hq : q ∈ Storage.mapSet m key v) :
    q = (key, v) ∨ q ∈ m := by
  unfold Storage.mapSet at hq
  by_cases hk : (List.lookup key m).isSome
  · rw [if_pos hk] at hq
    rcases List.mem_map.mp hq with ⟨p, hp, hfp⟩
    by_cases hpk : p.1 = key
    · rw [if_pos hpk] at hfp
      exact Or.inl hfp.symm
    · rw [if_neg hpk] at hfp
      exact Or.inr (hfp ▸ hp)
  · rw [if_neg hk] at hq
    rcases List.mem_append.mp hq with h | h
    · exact Or.inr h
    · exact Or.inl (List.mem_singleton.mp h)

/-! ## The global-dimension invariant (C1) -/

theorem Storage.dimInv_of_reachable {sq : ℚ → ℚ} (hsq0 : sq 0 = 0)
    {st : Storage} (h : Storage.Reachable sq st) :
    ∀ sh ∈ st.shards, ∀ p ∈ sh, p.2.length = st.dim ∧ st.dim ≠ 0 := by
  induction h with
  | new =>
      intro sh hsh p hp
      simp only [Storage.New] at hsh
      rw [List.eq_of_mem_replicate hsh] at hp
      exact absurd hp (List.not_mem_nil p)
  | set st key values hst ih =>
      by_cases h0 : st.dim = 0
      · have hempty : ∀ sh ∈ st.shards, ∀ p ∈ sh, False :=
          fun sh hsh p hp => (ih sh hsh p hp).2 h0
        cases hnorm : vec.Normalize sq values with
        | error e =>
            rw [Storage.Set_norm_error (Or.inl h0) hnorm]
            intro sh hsh p hp
            exact (hempty sh hsh p hp).elim
        | ok nv =>
            have hne : sq (vec.sumSquares values) ≠ 0 :=
              vec.Normalize_ok_ne_zero hnorm
            have hvlen : values.length ≠ 0 := by
              intro hz
              exact hne (by
                rw [List.length_eq_zero.mp hz, vec.sumSquares_nil, hsq0])
            rw [Storage.Set_ok (Or.inl h0) hnorm]
            intro sh hsh p hp
            simp only [if_pos h0]
            have hsh₂ : sh ∈ Storage.updateShard st.shards
                (Storage.shardIdx key) (fun m => Storage.mapSet m key nv) := hsh
            rcases Storage.mem_of_mem_updateShard hsh₂ with hsh' | hsh'
            · rcases Storage.mem_mapSet (hsh' ▸ hp) with hq | hq
              · rw [hq]
                exact ⟨vec.Normalize_ok_length hnorm, hvlen⟩
              · rcases Storage.mem_getD_shards hq with ⟨sh₀, hsh₀, hp₀⟩
                exact (hempty sh₀ hsh₀ p hp₀).elim
            · exact (hempty sh hsh' p hp).elim
      · by_cases hll : values.length = st.dim
        · cases hnorm : vec.Normalize sq values with
          | error e =>
              rw [Storage.Set_norm_error (Or.inr hll) hnorm]
              intro sh hsh p hp
              simp only [if_neg h0]
              exact ih sh hsh p hp
          | ok nv =>
              rw [Storage.Set_ok (Or.inr hll) hnorm]
              intro sh hsh p hp
              simp only [if_neg h0]
              have hsh₂ : sh ∈ Storage.updateShard st.shards
                  (Storage.shardIdx key) (fun m => Storage.mapSet m key nv) := hsh
              rcases Storage.mem_of_mem_updateShard hsh₂ with hsh' | hsh'
              · rcases Storage.mem_mapSet (hsh' ▸ hp) with hq | hq
                · rw [hq]
                  exact ⟨hll ▸ vec.Normalize_ok_length hnorm, h0⟩
                · rcases Storage.mem_getD_shards hq with ⟨sh₀, hsh₀, hp₀⟩
                  exact ih sh₀ hsh₀ p hp₀
              · exact ih sh hsh' p hp
        · rw [Storage.Set_mismatch h0 hll]
          exact ih
  | del st key hst ih =>
      unfold Storage.Delete
      by_cases hk : (List.lookup key (st.shards.getD (Storage.shardIdx key) [])).isSome
      · rw [if_pos hk]
        intro sh hsh p hp
        rcases Storage.mem_of_mem_updateShard hsh with hsh' | hsh'
        · have hp' : p ∈ st.shards.getD (Storage.shardIdx key) [] :=
            List.mem_of_mem_filter (hsh' ▸ hp)
          rcases Storage.mem_getD_shards hp' with ⟨sh₀, hsh₀, hp₀⟩
          exact ih sh₀ hsh₀ p hp₀
        · exact ih sh hsh' p hp
      · rw [if_neg hk]
        exact ih
  | clear st hst =>
      intro sh hsh p hp
      unfold Storage.Clear at hsh
      rcases List.mem_map.mp hsh with ⟨sh₀, _, hsh₀⟩
      rw [← hsh₀] at hp
      exact absurd hp (List.not_mem_nil p)

/-! ## Concrete evaluations used by witnesses -/

theorem normalize_10 : vec.Normalize sqId [1, 0] = .ok [1, 0] := by
  norm_num [vec.Normalize, vec.Magnitude, vec.sumSquares, sqId]

theorem Set_a_New : Storage.Set sqId Storage.New "a" [1, 0] = (.ok (), exA) := by
  rw [Storage.Set_ok (Or.inl rfl) normalize_10]
  decide

theorem Set_b_exA : Storage.Set sqId exA "b" [1, 0] = (.ok (), exAB) := by
  rw [Storage.Set_ok (Or.inr rfl) normalize_10]
  decide

theorem reach_exA : Storage.Reachable sqId exA := by
  have h := @Storage.Reachable.set sqId Storage.New "a" [1, 0]
    Storage.Reachable.new
  rw [Set_a_New] at h
  exact h

/-- C1: for every reachable store state whose global dimension is non-zero,
every stored vector entry in every partition has exactly that length.  The
dimension is established by a first write, is reset to 0 only by `Clear`,
and the mutating operations `Set`, `Delete`, `Clear` preserve the invariant
(`Get`, `Count` and `Search` are pure reads of the state and change
nothing, so reachability quantifies over exactly the states the operations
produce). -/
theorem C1_global_dimension_invariant (sq : ℚ → ℚ) (hsq0 : sq 0 = 0)
    (st : Storage) (h : Storage.Reachable sq st) (hdim : st.dim ≠ 0) :
    ∀ sh ∈ st.shards, ∀ p ∈ sh, p.2.length = st.dim :=
  fun sh hsh p hp => (Storage.dimInv_of_reachable hsq0 h sh hsh p hp).1

theorem C1_global_dimension_invariant_witness :
    exA.dim ≠ 0 ∧ ∀ sh ∈ exA.shards, ∀ p ∈ sh, p.2.length = exA.dim :=
  ⟨by decide,
   C1_global_dimension_invariant sqId rfl exA reach_exA (by decide)⟩

/-- C5: on a store whose dimension is fixed to `d ≠ 0`, `Set` of a vector
whose length differs from `d` fails with the DimensionMismatch error and
returns the store completely unchanged — every shard, every entry (in
particular any prior entry under the same key, still retrievable via
`Get`), and the dimension. -/
theorem C5_set_dimension_mismatch_atomic (sq : ℚ → ℚ) (st : Storage)
    (key : String) (values : List ℚ) (hdim : st.dim ≠ 0)
    (hlen : values.length ≠ st.dim) :
    Storage.Set sq st key values = (.error .dimensionMismatch, st) :=
  Storage.Set_mismatch hdim hlen

theorem C5_set_dimension_mismatch_atomic_witness :
    exA.dim ≠ 0 ∧ ([1, 0, 0] : List ℚ).length ≠ exA.dim ∧
      Storage.Set sqId exA "k2" [1, 0, 0] =
        (.error .dimensionMismatch, exA) :=
  ⟨by decide, by decide,
   C5_set_dimension_mismatch_atomic sqId exA "k2" [1, 0, 0]
     (by decide) (by decide)⟩

/-- C3 (amended): `Set` with an all-zero vector always fails and never
creates or changes an entry — the shard mappings are left unchanged, so
`Get` of every key (in particular the written key) is unchanged.  When the
store's dimension is unset or equals the vector's length the error is the
ZeroVector error; otherwise the dimension-mismatch rejection fires first.
A fixed (non-zero) dimension is retained.  However — contrary to the claim
as stated — on an Unset store the failing call does fix the global
dimension to `len(values)`: the dimension compare-and-set precedes
normalisation in `Storage.Set`. -/
theorem C3_set_zero_vector_amended (sq : ℚ → ℚ) (hsq0 : sq 0 = 0)
    (st : Storage) (key : String) (values : List ℚ)
    (hz : ∀ x ∈ values, x = 0) :
    (Storage.Set sq st key values).2.shards = st.shards ∧
    (∀ k', Storage.Get (Storage.Set sq st key values).2 k' =
      Storage.Get st k') ∧
    (st.dim = 0 ∨ values.length = st.dim →
      (Storage.Set sq st key values).1 = .error .zeroVector) ∧
    (st.dim ≠ 0 ∧ values.length ≠ st.dim →
      (Storage.Set sq st key values).1 = .error .dimensionMismatch) ∧
    (st.dim ≠ 0 → (Storage.Set sq st key values).2.dim = st.dim) ∧
    (st.dim = 0 → (Storage.Set sq st key values).2.dim = values.length) := by
  have hnorm : vec.Normalize sq values = .error .zeroVector :=
    vec.Normalize_error (by rw [vec.sumSquares_eq_zero_of_forall hz, hsq0])
  by_cases h0 : st.dim = 0
  · rw [Storage.Set_norm_error (Or.inl h0) hnorm]
    refine ⟨rfl, fun _ => rfl, fun _ => rfl, fun hc => absurd h0 hc.1,
      fun hc => absurd h0 hc, fun _ => by simp [h0]⟩
  · by_cases hll : values.length = st.dim
    · rw [Storage.Set_norm_error (Or.inr hll) hnorm]
      refine ⟨rfl, fun _ => rfl, fun _ => rfl, fun hc => absurd hll hc.2,
        fun _ => by simp [h0], fun hc => absurd hc h0⟩
    · rw [Storage.Set_mismatch h0 hll]
      exact ⟨rfl, fun _ => rfl, fun hc => (hc.elim h0 hll).elim,
        fun _ => rfl, fun _ => rfl, fun hc => absurd hc h0⟩

theorem C3_set_zero_vector_amended_witness :
    (Storage.Set sqId Storage.New "z" [0, 0, 0]).1 =
        .error VErr.zeroVector ∧
      Storage.Get (Storage.Set sqId Storage.New "z" [0, 0, 0]).2 "z" =
        Storage.Get Storage.New "z" := by
  have h := C3_set_zero_vector_amended sqId rfl Storage.New "z" [0, 0, 0]
    (by norm_num)
  exact ⟨h.2.2.1 (Or.inl rfl), h.2.1 "z"⟩

/-- C3 counterexample: on the fresh store (dimension 0, i.e. Unset), the
failing call `Set("z", [0,0,0])` does not leave the global dimension at its
prior value 0 — it fixes it to 3 — refuting "the global dimension retains
its prior value; a failing call does not fix the dimension". -/
theorem C3_set_zero_vector_counterexample :
    Storage.New.dim = 0 ∧
    (Storage.Set sqId Storage.New "z" [0, 0, 0]).1 =
      Except.error VErr.zeroVector ∧
    (Storage.Set sqId Storage.New "z" [0, 0, 0]).2.dim = 3 := by
  have hnorm : vec.Normalize sqId [0, 0, 0] = .error .zeroVector :=
    vec.Normalize_error (by norm_num [vec.sumSquares, sqId])
  rw [Storage.Set_norm_error (Or.inl rfl) hnorm]
  exact ⟨rfl, rfl, rfl⟩

/-- Indexing into the cleared shard list always yields the empty map. -/
theorem Storage.getD_map_const_nil (l : List ShardMap) (i : ℕ) :
    (l.map (fun _ => ([] : ShardMap))).getD i [] = [] := by
  induction l generalizing i with
  | nil => cases i <;> rfl
  | cons x xs ih => cases i with
      | zero => rfl
      | succ j => exact ih j

/-- C8: `Clear` moves every store to the empty Unset state: all partitions
empty (`Count` is 0 and `Get` is absent for every key), dimension 0, and a
subsequent `Set` of any non-zero vector — of any length — succeeds,
fixing the dimension to that vector's length. -/
theorem C8_clear_resets (sq : ℚ → ℚ)
    (hsq : ∀ x : ℚ, 0 ≤ x → (sq x = 0 ↔ x = 0)) (st : Storage) :
    Storage.Count (Storage.Clear st) = 0 ∧
    (∀ key, Storage.Get (Storage.Clear st) key = none) ∧
    (Storage.Clear st).dim = 0 ∧
    (∀ key values, vec.sumSquares values ≠ 0 →
      (Storage.Set sq (Storage.Clear st) key values).1 = .ok () ∧
      (Storage.Set sq (Storage.Clear st) key values).2.dim =
        values.length) := by
  refine ⟨?_, ?_, rfl, ?_⟩
  · unfold Storage.Count Storage.Clear
    rw [List.map_map]
    exact List.sum_eq_zero (fun x hx => by
      rcases List.mem_map.mp hx with ⟨sh, _, hsh⟩
      simpa using hsh.symm)
  · intro key
    unfold Storage.Get Storage.Clear
    rw [Storage.getD_map_const_nil]
    rfl
  · intro key values hv
    have hnz : sq (vec.sumSquares values) ≠ 0 := fun h =>
      hv ((hsq _ (vec.sumSquares_nonneg values)).mp h)
    rw [Storage.Set_ok (Or.inl rfl) (vec.Normalize_ok hnz)]
    refine ⟨rfl, ?_⟩
    show (if (Storage.Clear st).dim = 0 then values.length
      else (Storage.Clear st).dim) = values.length
    rw [if_pos (show (Storage.Clear st).dim = 0 from rfl)]

theorem C8_clear_resets_witness :
    Storage.Count (Storage.Clear exAB) = 0 ∧
    Storage.Get (Storage.Clear exAB) "a" = none ∧
    (Storage.Clear exAB).dim = 0 ∧
    vec.sumSquares [5] ≠ 0 ∧
    (Storage.Set sqId (Storage.Clear exAB) "c" [5]).1 = .ok () := by
  have h := C8_clear_resets sqId (fun x _ => Iff.rfl) exAB
  exact ⟨h.1, h.2.1 "a", h.2.2.1, by norm_num [vec.sumSquares],
    (h.2.2.2 "c" [5] (by norm_num [vec.sumSquares])).1⟩

/-! ## Top-k merge: totality, size and order -/

theorem Storage.mergeFold_nil {k : ℕ} {h : List vec.SearchResult} :
    Storage.mergeFold k h [] = some h := rfl

theorem Storage.mergeFold_cons_push {k : ℕ} {r : vec.SearchResult}
    {h rs : List vec.SearchResult} (hlt : h.length < k) :
    Storage.mergeFold k h (r :: rs) =
      Storage.mergeFold k (vec.heapInsert r h) rs := by
  simp only [Storage.mergeFold, if_pos hlt]

theorem Storage.mergeFold_cons_nil_panic {k : ℕ} {r : vec.SearchResult}
    {rs : List vec.SearchResult} (hk : ¬ (0 : ℕ) < k) :
    Storage.mergeFold k [] (r :: rs) = none := by
  simp only [Storage.mergeFold, List.length_nil, if_neg hk]

theorem Storage.mergeFold_cons_evict {k : ℕ}
    {root r : vec.SearchResult} {t rs : List vec.SearchResult}
    (hfull : ¬ (root :: t).length < k)
    (hsim : root.Similarity < r.Similarity) :
    Storage.mergeFold k (root :: t) (r :: rs) =
      Storage.mergeFold k (vec.heapInsert r t) rs := by
  simp only [Storage.mergeFold, if_neg hfull, if_pos hsim]

theorem Storage.mergeFold_cons_keep {k : ℕ}
    {root r : vec.SearchResult} {t rs : List vec.SearchResult}
    (hfull : ¬ (root :: t).length < k)
    (hsim : ¬ root.Similarity < r.Similarity) :
    Storage.mergeFold k (root :: t) (r :: rs) =
      Storage.mergeFold k (root :: t) rs := by
  simp only [Storage.mergeFold, if_neg hfull, if_neg hsim]

theorem Storage.mergeFold_ne_none {k : ℕ} (hk : 1 ≤ k) :
    ∀ (rs h : List vec.SearchResult), Storage.mergeFold k h rs ≠ none := by
  intro rs
  induction rs with
  | nil => intro h; simp [Storage.mergeFold_nil]
  | cons r rs ih =>
      intro h
      by_cases hlen : h.length < k
      · rw [Storage.mergeFold_cons_push hlen]
        exact ih _
      · cases h with
        | nil => exact absurd (by simpa using hk) hlen
        | cons root t =>
            by_cases hsim : root.Similarity < r.Similarity
            · rw [Storage.mergeFold_cons_evict hlen hsim]
              exact ih _
            · rw [Storage.mergeFold_cons_keep hlen hsim]
              exact ih _

theorem Storage.mergeFold_some_spec {k : ℕ} (hk : 1 ≤ k) :
    ∀ (rs h : List vec.SearchResult), h.length ≤ k →
      h.Pairwise (fun a b => a.Similarity ≤ b.Similarity) →
      ∃ h', Storage.mergeFold k h rs = some h' ∧
        h'.length = min k (h.length + rs.length) ∧
        h'.Pairwise (fun a b => a.Similarity ≤ b.Similarity) := by
  intro rs
  induction rs with
  | nil =>
      intro h hle hs
      exact ⟨h, rfl, by simpa using (Nat.min_eq_right hle).symm, hs⟩
  | cons r rs ih =>
      intro h hle hs
      by_cases hlt : h.length < k
      · rw [Storage.mergeFold_cons_push hlt]
        rcases ih (vec.heapInsert r h)
          (by rw [vec.heapInsert_length]; omega)
          (vec.heapInsert_pairwise hs) with ⟨h', h1, h2, h3⟩
        refine ⟨h', h1, ?_, h3⟩
        rw [h2, vec.heapInsert_length]
        simp only [List.length_cons]
        omega
      · have hke : h.length = k := le_antisymm hle (le_of_not_lt hlt)
        cases h with
        | nil => exact absurd (by simpa using hk) hlt
        | cons root t =>
            rw [List.pairwise_cons] at hs
            have htlen : t.length + 1 = k := by simpa using hke
            by_cases hsim : root.Similarity < r.Similarity
            · rw [Storage.mergeFold_cons_evict hlt hsim]
              rcases ih (vec.heapInsert r t)
                (by rw [vec.heapInsert_length]; omega)
                (vec.heapInsert_pairwise hs.2) with ⟨h', h1, h2, h3⟩
              refine ⟨h', h1, ?_, h3⟩
              rw [h2, vec.heapInsert_length]
              simp only [List.length_cons]
              omega
            · rw [Storage.mergeFold_cons_keep hlt hsim]
              rcases ih (root :: t) hle (List.pairwise_cons.mpr hs)
                with ⟨h', h1, h2, h3⟩
              refine ⟨h', h1, ?_, h3⟩
              rw [h2]
              simp only [List.length_cons]
              omega

/-! ## Shard scanning: success and failure characterisation -/

theorem vec.DotProduct_ok {a b : List ℚ} (h : b.length = a.length) :
    vec.DotProduct a b = .ok ((List.zipWith (· * ·) a b).sum) := by
  unfold vec.DotProduct
  rw [if_neg (by omega)]

theorem vec.DotProduct_error {a b : List ℚ} (h : b.length ≠ a.length) :
    vec.DotProduct a b = .error .dimensionMismatch := by
  unfold vec.DotProduct
  rw [if_pos (by omega)]

theorem Storage.scanShard_cons_ok {nq v : List ℚ} {rest : ShardMap}
    {key : String} {s : ℚ} {out : List vec.SearchResult}
    (hdot : vec.DotProduct nq v = .ok s)
    (hrest : Storage.scanShard nq rest = .ok out) :
    Storage.scanShard nq ((key, v) :: rest) = .ok (⟨key, s, 0⟩ :: out) := by
  simp only [Storage.scanShard, hdot, hrest]

theorem Storage.scanShard_cons_dot_error {nq v : List ℚ} {rest : ShardMap}
    {key : String} {e : VErr} (hdot : vec.DotProduct nq v = .error e) :
    Storage.scanShard nq ((key, v) :: rest) = .error e := by
  simp only [Storage.scanShard, hdot]

theorem Storage.scanShard_cons_rest_error {nq v : List ℚ}
    {rest : ShardMap} {key : String} {s : ℚ} {e : VErr}
    (hdot : vec.DotProduct nq v = .ok s)
    (hrest : Storage.scanShard nq rest = .error e) :
    Storage.scanShard nq ((key, v) :: rest) = .error e := by
  simp only [Storage.scanShard, hdot, hrest]

theorem Storage.scanShards_cons_ok {nq : List ℚ} {sh : ShardMap}
    {rest : List ShardMap} {a b : List vec.SearchResult}
    (ha : Storage.scanShard nq sh = .ok a)
    (hb : Storage.scanShards nq rest = .ok b) :
    Storage.scanShards nq (sh :: rest) = .ok (a ++ b) := by
  simp only [Storage.scanShards, ha, hb]

theorem Storage.scanShards_cons_head_error {nq : List ℚ} {sh : ShardMap}
    {rest : List ShardMap} {e : VErr}
    (ha : Storage.scanShard nq sh = .error e) :
    Storage.scanShards nq (sh :: rest) = .error e := by
  simp only [Storage.scanShards, ha]

theorem Storage.scanShards_cons_rest_error {nq : List ℚ} {sh : ShardMap}
    {rest : List ShardMap} {a : List vec.SearchResult} {e : VErr}
    (ha : Storage.scanShard nq sh = .ok a)
    (hb : Storage.scanShards nq rest = .error e) :
    Storage.scanShards nq (sh :: rest) = .error e := by
  simp only [Storage.scanShards, ha, hb]

theorem Storage.scanShard_ok_of_dims {nq : List ℚ} {sh : ShardMap}
    (hd : ∀ p ∈ sh, p.2.length = nq.length) :
    ∃ out, Storage.scanShard nq sh = .ok out ∧ out.length = sh.length := by
  induction sh with
  | nil => exact ⟨[], rfl, rfl⟩
  | cons p rest ih =>
      obtain ⟨key, v⟩ := p
      have hv : v.length = nq.length := hd (key, v) (by simp)
      rcases ih (fun q hq => hd q (by simp [hq])) with ⟨out, hout, hlen⟩
      exact ⟨⟨key, (List.zipWith (· * ·) nq v).sum, 0⟩ :: out,
        Storage.scanShard_cons_ok (vec.DotProduct_ok hv) hout,
        by simp [hlen]⟩

theorem Storage.scanShards_ok_of_dims {nq : List ℚ}
    {shards : List ShardMap}
    (hd : ∀ sh ∈ shards, ∀ p ∈ sh, p.2.length = nq.length) :
    ∃ out, Storage.scanShards nq shards = .ok out ∧
      out.length = (shards.map List.length).sum := by
  induction shards with
  | nil => exact ⟨[], rfl, rfl⟩
  | cons sh rest ih =>
      rcases Storage.scanShard_ok_of_dims (hd sh (by simp))
        with ⟨a, ha, halen⟩
      rcases ih (fun s hs p hp => hd s (by simp [hs]) p hp)
        with ⟨b, hb, hblen⟩
      exact ⟨a ++ b, Storage.scanShards_cons_ok ha hb,
        by simp [halen, hblen]⟩

theorem Storage.scanShard_error_of_mismatch {nq : List ℚ} {sh : ShardMap}
    (hex : ∃ p ∈ sh, p.2.length ≠ nq.length) :
    Storage.scanShard nq sh = .error .dimensionMismatch := by
  induction sh with
  | nil => simp at hex
  | cons p rest ih =>
      obtain ⟨key, v⟩ := p
      by_cases hv : v.length = nq.length
      · have hrest : ∃ q ∈ rest, q.2.length ≠ nq.length := by
          rcases hex with ⟨q, hq, hqne⟩
          rcases List.mem_cons.mp hq with hq' | hq'
          · rw [hq'] at hqne
            exact absurd hv hqne
          · exact ⟨q, hq', hqne⟩
        exact Storage.scanShard_cons_rest_error (vec.DotProduct_ok hv)
          (ih hrest)
      · exact Storage.scanShard_cons_dot_error
          (vec.DotProduct_error (by simpa using hv))

theorem Storage.scanShards_error_of_mismatch {nq : List ℚ}
    {shards : List ShardMap}
    (hex : ∃ sh ∈ shards, ∃ p ∈ sh, p.2.length ≠ nq.length) :
    Storage.scanShards nq shards = .error .dimensionMismatch := by
  induction shards with
  | nil => simp at hex
  | cons sh rest ih =>
      by_cases hsh : ∃ p ∈ sh, p.2.length ≠ nq.length
      · exact Storage.scanShards_cons_head_error
          (Storage.scanShard_error_of_mismatch hsh)
      · push_neg at hsh
        rcases Storage.scanShard_ok_of_dims hsh with ⟨a, ha, _⟩
        have hrest : ∃ sh₀ ∈ rest, ∃ p ∈ sh₀, p.2.length ≠ nq.length := by
          rcases hex with ⟨sh₀, hsh₀, q, hq, hqne⟩
          rcases List.mem_cons.mp hsh₀ with h' | h'
          · exact absurd hqne (by rw [← h'] at hsh; simpa using hsh q hq)
          · exact ⟨sh₀, h', q, hq, hqne⟩
        exact Storage.scanShards_cons_rest_error ha (ih hrest)

/-! ## `Search` pipeline reductions -/

theorem Storage.Search_norm_error {sq : ℚ → ℚ} {st : Storage} {q : List ℚ}
    {k : ℕ} {e : VErr} (hn : vec.Normalize sq q = .error e) :
    Storage.Search sq st q k = .error e := by
  simp only [Storage.Search, hn]

theorem Storage.Search_scan_error {sq : ℚ → ℚ} {st : Storage}
    {q nq : List ℚ} {k : ℕ} {e : VErr}
    (hn : vec.Normalize sq q = .ok nq)
    (hs : Storage.scanShards nq st.shards = .error e) :
    Storage.Search sq st q k = .error e := by
  simp only [Storage.Search, hn, hs]

theorem Storage.Search_ok {sq : ℚ → ℚ} {st : Storage} {q nq : List ℚ}
    {k : ℕ} {cands : List vec.SearchResult}
    (hn : vec.Normalize sq q = .ok nq)
    (hs : Storage.scanShards nq st.shards = .ok cands) :
    Storage.Search sq st q k =
      .ok ((Storage.mergeFold k [] cands).map List.reverse) := by
  simp only [Storage.Search, hn, hs]

/-- C10: the top-k merge loop of `Search` reads the heap root `(*h)[0]`
only when the heap already holds `k` elements, and with `k ≥ 1` the
`size < k` branch has necessarily fired first, so the root access is always
in bounds: for every store, query and `k ≥ 1`, `Search` never reaches the
modelled panic (`Search` never evaluates to `ok none`, whatever its
outcome). -/
theorem C10_topk_root_access_safe (sq : ℚ → ℚ) (st : Storage)
    (q : List ℚ) (k : ℕ) (hk : 1 ≤ k) :
    Storage.Search sq st q k ≠ Except.ok none := by
  cases hn : vec.Normalize sq q with
  | error e => rw [Storage.Search_norm_error hn]; simp
  | ok nq =>
      cases hs : Storage.scanShards nq st.shards with
      | error e => rw [Storage.Search_scan_error hn hs]; simp
      | ok cands =>
          rw [Storage.Search_ok hn hs]
          intro hcontra
          have hmap := Except.ok.inj hcontra
          exact Storage.mergeFold_ne_none hk cands []
            (Option.map_eq_none'.mp hmap)

theorem C10_topk_root_access_safe_witness :
    (1 : ℕ) ≤ 2 ∧ Storage.Search sqId exAB [1, 0] 2 ≠ Except.ok none :=
  ⟨by decide, C10_topk_root_access_safe sqId exAB [1, 0] 2 (by decide)⟩

/-- `Search` on a non-zero query whose length matches every stored entry
succeeds, with `min k count` results sorted descending. -/
theorem Storage.search_ok_of_dims (sq : ℚ → ℚ)
    (hsq : ∀ x : ℚ, 0 ≤ x → (sq x = 0 ↔ x = 0)) (st : Storage)
    (q : List ℚ) (k : ℕ) (hq : vec.sumSquares q ≠ 0) (hk : 1 ≤ k)
    (hdims : ∀ sh ∈ st.shards, ∀ p ∈ sh, p.2.length = q.length) :
    ∃ rs, Storage.Search sq st q k = .ok (some rs) ∧
      rs.length = min k (Storage.Count st) ∧
      rs.Pairwise (fun a b => b.Similarity ≤ a.Similarity) := by
  have hnz : sq (vec.sumSquares q) ≠ 0 := fun h =>
    hq ((hsq _ (vec.sumSquares_nonneg q)).mp h)
  have hnqlen :
      (q.map (fun x => x / sq (vec.sumSquares q))).length = q.length := by
    simp
  rcases Storage.scanShards_ok_of_dims
      (show ∀ sh ∈ st.shards, ∀ p ∈ sh, p.2.length =
          (q.map (fun x => x / sq (vec.sumSquares q))).length from
        fun sh hsh p hp => by rw [hnqlen]; exact hdims sh hsh p hp)
    with ⟨cands, hscan, hclen⟩
  rcases Storage.mergeFold_some_spec hk cands [] (by simp)
      List.Pairwise.nil with ⟨h', hm, hlen, hsort⟩
  refine ⟨h'.reverse, ?_, ?_, ?_⟩
  · rw [Storage.Search_ok (vec.Normalize_ok hnz) hscan, hm]
    rfl
  · rw [List.length_reverse, hlen, hclen]
    unfold Storage.Count
    simp
  · rw [List.pairwise_reverse]
    exact hsort

/-- C2 (amended): for every store state, non-zero query of the stored
dimension and `k ≥ 1`, `Search` succeeds and returns exactly
`min k (stored count)` results sorted descending by similarity.  The order
is non-strict: exact similarity ties appear in unspecified adjacent order,
so "strictly descending" fails (see the counterexample); the claim is
amended to non-strict descending order. -/
theorem C2_search_shape (sq : ℚ → ℚ)
    (hsq : ∀ x : ℚ, 0 ≤ x → (sq x = 0 ↔ x = 0)) (st : Storage)
    (q : List ℚ) (k : ℕ) (hq : vec.sumSquares q ≠ 0) (hk : 1 ≤ k)
    (hdims : ∀ sh ∈ st.shards, ∀ p ∈ sh, p.2.length = q.length) :
    ∃ rs, Storage.Search sq st q k = .ok (some rs) ∧
      rs.length = min k (Storage.Count st) ∧
      rs.Pairwise (fun a b => b.Similarity ≤ a.Similarity) :=
  Storage.search_ok_of_dims sq hsq st q k hq hk hdims

theorem C2_search_shape_witness :
    vec.sumSquares [1, 0] ≠ 0 ∧
    (∀ sh ∈ exAB.shards, ∀ p ∈ sh, p.2.length = ([1, 0] : List ℚ).length) ∧
    ∃ rs, Storage.Search sqId exAB [1, 0] 2 = .ok (some rs) ∧
      rs.length = min 2 (Storage.Count exAB) ∧
      rs.Pairwise (fun a b => b.Similarity ≤ a.Similarity) :=
  ⟨by norm_num [vec.sumSquares], by decide,
   C2_search_shape sqId (fun x _ => Iff.rfl) exAB [1, 0] 2
     (by norm_num [vec.sumSquares]) (by decide) (by decide)⟩

/-- C2 counterexample: `exAB` stores two distinct keys with the identical
vector `[1,0]`; searching `[1,0]` with `k = 2` returns both with similarity
exactly 1, so the result is not *strictly* descending — refuting "sorted
strictly descending by similarity" for a valid non-zero query of the stored
dimension and `k > 0`. -/
theorem C2_search_strict_counterexample :
    vec.sumSquares [1, 0] ≠ 0 ∧
    (∀ sh ∈ exAB.shards, ∀ p ∈ sh, p.2.length = ([1, 0] : List ℚ).length) ∧
    Storage.Search sqId exAB [1, 0] 2 =
      .ok (some [⟨"a", 1, 0⟩, ⟨"b", 1, 0⟩]) ∧
    ¬ ([⟨"a", 1, 0⟩, ⟨"b", 1, 0⟩] :
        List vec.SearchResult).Pairwise
      (fun a b => b.Similarity < a.Similarity) := by
  refine ⟨by norm_num [vec.sumSquares], by decide, ?_, ?_⟩
  · have hb : Storage.scanShard [1, 0] shB = .ok [⟨"b", 1, 0⟩] := by
      norm_num [Storage.scanShard, vec.DotProduct, shB]
    have ha : Storage.scanShard [1, 0] shA = .ok [⟨"a", 1, 0⟩] := by
      norm_num [Storage.scanShard, vec.DotProduct, shA]
    have hscan : Storage.scanShards [1, 0] exAB.shards =
        .ok [⟨"b", 1, 0⟩, ⟨"a", 1, 0⟩] := by
      show Storage.scanShards [1, 0] exABshards = _
      simp only [exABshards, Storage.scanShards, ha, hb]
      rfl
    have hm : Storage.mergeFold 2 [] [⟨"b", 1, 0⟩, ⟨"a", 1, 0⟩] =
        some [⟨"b", 1, 0⟩, ⟨"a", 1, 0⟩] := by
      norm_num [Storage.mergeFold, vec.heapInsert]
    rw [Storage.Search_ok normalize_10 hscan, hm]
    rfl
  · intro hpair
    rw [List.pairwise_cons] at hpair
    have := hpair.1 ⟨"b", 1, 0⟩ (by simp)
    exact absurd this (by norm_num)

/-- C4 (amended): `Search`'s failure modes are exactly two.  A zero-
magnitude query fails with the ZeroVector error; a non-zero query fails —
with the DimensionMismatch error — exactly when some stored entry's length
differs from the query's (the scan's `DotProduct` aborts the search), and
succeeds otherwise.  The claim's assertion that a non-zero query always
returns a result sequence, "including when q's length differs from the
stored vectors' dimension", is refuted by the counterexample. -/
theorem C4_search_error_modes (sq : ℚ → ℚ)
    (hsq : ∀ x : ℚ, 0 ≤ x → (sq x = 0 ↔ x = 0)) (st : Storage)
    (q : List ℚ) (k : ℕ) (hk : 1 ≤ k) :
    (vec.sumSquares q = 0 →
      Storage.Search sq st q k = .error .zeroVector) ∧
    (vec.sumSquares q ≠ 0 ∧
        (∃ sh ∈ st.shards, ∃ p ∈ sh, p.2.length ≠ q.length) →
      Storage.Search sq st q k = .error .dimensionMismatch) ∧
    (vec.sumSquares q ≠ 0 ∧
        (∀ sh ∈ st.shards, ∀ p ∈ sh, p.2.length = q.length) →
      ∃ rs, Storage.Search sq st q k = .ok (some rs)) := by
  refine ⟨?_, ?_, ?_⟩
  · intro h0
    exact Storage.Search_norm_error
      (vec.Normalize_error (by rw [h0]; exact (hsq 0 le_rfl).mpr rfl))
  · rintro ⟨hq, sh, hsh, p, hp, hne⟩
    have hnz : sq (vec.sumSquares q) ≠ 0 := fun h =>
      hq ((hsq _ (vec.sumSquares_nonneg q)).mp h)
    refine Storage.Search_scan_error (vec.Normalize_ok hnz)
      (Storage.scanShards_error_of_mismatch ⟨sh, hsh, p, hp, ?_⟩)
    simpa using hne
  · rintro ⟨hq, hdims⟩
    rcases Storage.search_ok_of_dims sq hsq st q k hq hk hdims
      with ⟨rs, hrs, -, -⟩
    exact ⟨rs, hrs⟩

theorem C4_search_error_modes_witness :
    vec.sumSquares [1, 0] ≠ 0 ∧
    ∃ rs, Storage.Search sqId exAB [1, 0] 1 = .ok (some rs) := by
  have h := C4_search_error_modes sqId (fun x _ => Iff.rfl) exAB [1, 0] 1
    (by decide)
  exact ⟨by norm_num [vec.sumSquares],
    h.2.2 ⟨by norm_num [vec.sumSquares], by decide⟩⟩

/-- C4 counterexample: `exA` stores one entry of length 2; the query `[1]`
is non-zero but of length 1, and `Search([1], 1)` fails with the
DimensionMismatch error instead of returning a result sequence — refuting
"Search's only failure mode is the zero query". -/
theorem C4_search_counterexample :
    vec.sumSquares [1] ≠ 0 ∧
    Storage.Search sqId exA [1] 1 = .error VErr.dimensionMismatch := by
  refine ⟨by norm_num [vec.sumSquares], ?_⟩
  have hn : vec.Normalize sqId [1] = .ok [1] := by
    norm_num [vec.Normalize, vec.Magnitude, vec.sumSquares, sqId]
  exact Storage.Search_scan_error hn
    (Storage.scanShards_error_of_mismatch
      ⟨shA, by decide, ("a", [1, 0]), by decide, by decide⟩)

/-! ## Decimal lemmas for the codec -/

theorem protocol.digitChar_isDigit {n : ℕ} (h : n < 10) :
    (Nat.digitChar n).isDigit = true := by
  interval_cases n <;> decide

theorem protocol.digitChar_toNat {n : ℕ} (h : n < 10) :
    (Nat.digitChar n).toNat = 48 + n := by
  interval_cases n <;> decide

theorem protocol.natToDec_all_digits :
    ∀ n, ∀ c ∈ protocol.natToDec n, c.isDigit = true := by
  intro n
  induction n using Nat.strong_induction_on with
  | _ n ih =>
      intro c hc
      rw [protocol.natToDec] at hc
      by_cases h : n < 10
      · rw [if_pos h] at hc
        rw [List.mem_singleton.mp hc]
        exact protocol.digitChar_isDigit h
      · rw [if_neg h] at hc
        rcases List.mem_append.mp hc with h' | h'
        · exact ih (n / 10) (Nat.div_lt_self (by omega) (by omega)) c h'
        · rw [List.mem_singleton.mp h']
          exact protocol.digitChar_isDigit (Nat.mod_lt _ (by omega))

theorem protocol.natToDec_ne_nil (n : ℕ) : protocol.natToDec n ≠ [] := by
  rw [protocol.natToDec]
  by_cases h : n < 10
  · rw [if_pos h]; simp
  · rw [if_neg h]; simp

theorem protocol.digitsToNat_append (a : List Char) (c : Char) :
    protocol.digitsToNat (a ++ [c]) =
      10 * protocol.digitsToNat a + (c.toNat - 48) := by
  simp [protocol.digitsToNat, List.foldl_append]

theorem protocol.digitsToNat_natToDec :
    ∀ n, protocol.digitsToNat (protocol.natToDec n) = n := by
  intro n
  induction n using Nat.strong_induction_on with
  | _ n ih =>
      rw [protocol.natToDec]
      by_cases h : n < 10
      · rw [if_pos h]
        simp [protocol.digitsToNat, protocol.digitChar_toNat h]
      · rw [if_neg h]
        rw [protocol.digitsToNat_append,
          ih (n / 10) (Nat.div_lt_self (by omega) (by omega)),
          protocol.digitChar_toNat (Nat.mod_lt _ (by omega))]
        omega

theorem protocol.atoi_natToDec (n : ℕ) :
    protocol.atoi (protocol.natToDec n) = some (n : ℤ) := by
  cases hne : protocol.natToDec n with
  | nil => exact absurd hne (protocol.natToDec_ne_nil n)
  | cons c t =>
      have hall : ∀ x ∈ c :: t, x.isDigit = true := by
        rw [← hne]; exact protocol.natToDec_all_digits n
      have hc : c.isDigit = true := hall c (by simp)
      have hplus : ¬ c = '+' := fun h => by rw [h] at hc; exact absurd hc (by decide)
      have hminus : ¬ c = '-' := fun h => by rw [h] at hc; exact absurd hc (by decide)
      simp only [protocol.atoi, if_neg hplus, if_neg hminus,
        if_pos (List.all_eq_true.mpr hall)]
      rw [← hne, protocol.digitsToNat_natToDec]

theorem protocol.natToDec_no_nl (n : ℕ) : '\n' ∉ protocol.natToDec n :=
  fun h => absurd (protocol.natToDec_all_digits n '\n' h) (by decide)

/-! ## Reader round-trip lemmas -/

theorem protocol.splitAtNL_round {l : List Char} (hnl : '\n' ∉ l)
    (r : List Char) : protocol.splitAtNL (l ++ '\n' :: r) = some (l, r) := by
  induction l with
  | nil => simp [protocol.splitAtNL]
  | cons c t ih =>
      have hc : ¬ c = '\n' := fun h => hnl (by simp [h])
      have ht : '\n' ∉ t := fun h => hnl (by simp [h])
      simp [protocol.splitAtNL, hc, ih ht]

theorem protocol.readLine_round {l : List Char} (hnl : '\n' ∉ l)
    (r : List Char) :
    protocol.readLine (l ++ '\r' :: '\n' :: r) = .ok (l, r) := by
  have hsplit : protocol.splitAtNL (l ++ '\r' :: '\n' :: r) =
      some (l ++ ['\r'], r) := by
    have h2 : '\n' ∉ l ++ ['\r'] := by
      intro h
      rcases List.mem_append.mp h with h' | h'
      · exact hnl h'
      · exact absurd (List.mem_singleton.mp h') (by decide)
    have : l ++ '\r' :: '\n' :: r = (l ++ ['\r']) ++ '\n' :: r := by simp
    rw [this, protocol.splitAtNL_round h2]
  simp [protocol.readLine, hsplit]

theorem protocol.readChunk_round (l r : List Char) :
    protocol.readChunk l.length (l ++ r) = some (l, r) := by
  induction l with
  | nil => simp [protocol.readChunk]
  | cons c t ih => simp [protocol.readChunk, ih]

theorem protocol.readBulkString_round (s rest : List Char) :
    protocol.readBulkString
        (protocol.natToDec s.length ++ '\r' :: '\n' ::
          (s ++ '\r' :: '\n' :: rest)) = .ok (s, rest) := by
  have h1 : ¬ ((s.length : ℤ) = -1) := by omega
  have h2 : ¬ ((s.length : ℤ) < 0) := by omega
  simp only [protocol.readBulkString,
    protocol.readLine_round (protocol.natToDec_no_nl s.length),
    protocol.atoi_natToDec, if_neg h1, if_neg h2, Int.toNat_natCast,
    protocol.readChunk_round]

theorem protocol.readValue_bulk (t : List Char) :
    protocol.readValue ('$' :: t) = protocol.readBulkString t := by
  simp [protocol.readValue]

theorem protocol.readValue_simple (t : List Char) :
    protocol.readValue ('+' :: t) = protocol.readLine t := by
  simp [protocol.readValue]

theorem protocol.readValue_int (t : List Char) :
    protocol.readValue (':' :: t) = protocol.readLine t := by
  simp [protocol.readValue]

theorem protocol.readValue_err {t line rest : List Char}
    (h : protocol.readLine t = .ok (line, rest)) :
    protocol.readValue ('-' :: t) = .error (.respError line) := by
  simp [protocol.readValue, h]

theorem protocol.readN_round :
    ∀ (els : List (List Char)) (rest : List Char),
      protocol.readN els.length
          ((els.map protocol.WriteBulkString).flatten ++ rest) =
        .ok (els, rest) := by
  intro els
  induction els with
  | nil => intro rest; simp [protocol.readN]
  | cons e els ih =>
      intro rest
      have hshape :
          ((e :: els).map protocol.WriteBulkString).flatten ++ rest =
            '$' :: (protocol.natToDec e.length ++ '\r' :: '\n' ::
              (e ++ '\r' :: '\n' ::
                ((els.map protocol.WriteBulkString).flatten ++ rest))) := by
        simp [protocol.WriteBulkString, protocol.CRLF]
      rw [hshape]
      show protocol.readN (els.length + 1) _ = _
      simp only [protocol.readN, protocol.readValue_bulk,
        protocol.readBulkString_round, ih]

theorem protocol.ReadCommand_array (t : List Char) :
    protocol.ReadCommand ('*' :: t) = protocol.readArray t := by
  simp [protocol.ReadCommand]

/-- C7: codec round trip — encoding any sequence of strings with the
writer's array encoding (an array of bulk strings) and decoding the
produced bytes with `ReadCommand` yields exactly the original sequence
(and consumes exactly the encoded bytes, leaving any following input
untouched).  Proved for arbitrary strings, hence in particular for the
printable ones the claim quantifies over. -/
theorem C7_write_read_roundtrip (els : List (List Char))
    (rest : List Char) :
    protocol.ReadCommand (protocol.WriteArray els ++ rest) =
      .ok (els, rest) := by
  have hshape : protocol.WriteArray els ++ rest =
      '*' :: (protocol.natToDec els.length ++ '\r' :: '\n' ::
        ((els.map protocol.WriteBulkString).flatten ++ rest)) := by
    simp [protocol.WriteArray, protocol.CRLF]
  rw [hshape, protocol.ReadCommand_array]
  have h2 : ¬ ((els.length : ℤ) < 0) := by omega
  simp only [protocol.readArray,
    protocol.readLine_round (protocol.natToDec_no_nl els.length),
    protocol.atoi_natToDec, if_neg h2, Int.toNat_natCast,
    protocol.readN_round]

/-- C9 (amended): a well-formed bare scalar frame decodes as follows —
a simple string, integer, or bulk string frame yields the frame's decoded
text as a single-element command; but an error frame (`-...`), contrary to
the claim as stated, is surfaced as a failure carrying the frame's text as
its message (as the spec's own RESP-error clause requires), not as a
single-element result. -/
theorem C9_bare_scalars (text s rest : List Char) (hnl : '\n' ∉ text) :
    protocol.ReadCommand ('+' :: (text ++ '\r' :: '\n' :: rest)) =
      .ok ([text], rest) ∧
    protocol.ReadCommand (':' :: (text ++ '\r' :: '\n' :: rest)) =
      .ok ([text], rest) ∧
    protocol.ReadCommand ('$' :: (protocol.natToDec s.length ++
        '\r' :: '\n' :: (s ++ '\r' :: '\n' :: rest))) =
      .ok ([s], rest) ∧
    protocol.ReadCommand ('-' :: (text ++ '\r' :: '\n' :: rest)) =
      .error (.respError text) := by
  refine ⟨?_, ?_, ?_, ?_⟩
  · simp [protocol.ReadCommand, protocol.readValue_simple,
      protocol.readLine_round hnl]
  · simp [protocol.ReadCommand, protocol.readValue_int,
      protocol.readLine_round hnl]
  · simp [protocol.ReadCommand, protocol.readValue_bulk,
      protocol.readBulkString_round]
  · simp [protocol.ReadCommand,
      protocol.readValue_err (protocol.readLine_round hnl rest)]

theorem C9_bare_scalars_witness :
    ('\n' ∉ ("OK".data : List Char)) ∧
    protocol.ReadCommand ('+' :: ("OK".data ++ '\r' :: '\n' :: [])) =
      .ok (["OK".data], []) ∧
    protocol.ReadCommand ('-' :: ("OK".data ++ '\r' :: '\n' :: [])) =
      .error (.respError "OK".data) := by
  have h := C9_bare_scalars "OK".data "x".data [] (by decide)
  exact ⟨by decide, h.1, h.2.2.2⟩

/-- C9 counterexample: `ReadCommand` on the bare error frame
`-ERR unknown command\r\n` (the repository's own protocol test input)
returns a failure carrying the message, not the single-element result
`["ERR unknown command"]` the claim asserts. -/
theorem C9_bare_scalars_counterexample :
    protocol.ReadCommand ("-ERR unknown command\r\n".data) =
      .error (.respError "ERR unknown command".data) := by decide

/-! ## `FastVectorParser` versus the specification's grammar -/

theorem protocol.bracketCond (t : List Char) :
    (t.length < 2 ∨ t.head? ≠ some '[' ∨ t.getLast? ≠ some ']') ↔
      ¬ (t.head? = some '[' ∧ t.getLast? = some ']') := by
  constructor
  · rintro (h | h | h) ⟨h1, h2⟩
    · cases t with
      | nil => simp at h1
      | cons c ts =>
          cases ts with
          | nil =>
              simp at h1 h2
              rw [h1] at h2
              exact absurd h2 (by decide)
          | cons d ts' => simp at h; omega
    · exact h h1
    · exact h h2
  · intro h
    by_cases h1 : t.head? = some '['
    · by_cases h2 : t.getLast? = some ']'
      · exact absurd ⟨h1, h2⟩ h
      · exact Or.inr (Or.inr h2)
    · exact Or.inr (Or.inl h1)

theorem protocol.parseParts_eq (ps : List (List Char)) :
    protocol.parseParts ps =
      protocol.specParsePieces
        ((ps.map protocol.trimChars).filter (fun p => p ≠ [])) := by
  induction ps with
  | nil => rfl
  | cons p ps ih =>
      by_cases hq : protocol.trimChars p = []
      · simp [protocol.parseParts, hq, ih]
      · cases hf : protocol.parseFloatQ (protocol.trimChars p) with
        | none =>
            simp [protocol.parseParts, protocol.specParsePieces, hq, hf]
        | some v =>
            simp [protocol.parseParts, protocol.specParsePieces, hq, hf, ih]

/-- C6: `FastVectorParser` computes exactly the specification's grammar:
after trimming surrounding whitespace the parse fails unless the string
starts with `'['` and ends with `']'`; the bracket interior is split on
commas with each piece trimmed; empty pieces are silently skipped (so
`"[0.1,,0.2]"` yields two elements and `"[]"` or `"[ ]"` a zero-length
sequence, not an error); and any non-empty piece that is not a
floating-point literal fails the whole parse with that token named in the
error.  (`fastVectorParserFromSpec` is the spec-side rendering of exactly
those words; the two sides share the same float-literal grammar
`parseFloatQ`.) -/
theorem C6_fast_vector_parser_correct (s : List Char) :
    protocol.FastVectorParser s = protocol.fastVectorParserFromSpec s := by
  simp only [protocol.FastVectorParser, protocol.fastVectorParserFromSpec]
  by_cases hb : (protocol.trimChars s).head? = some '[' ∧
      (protocol.trimChars s).getLast? = some ']'
  · have hnd : ¬ ((protocol.trimChars s).length < 2 ∨
        (protocol.trimChars s).head? ≠ some '[' ∨
        (protocol.trimChars s).getLast? ≠ some ']') :=
      fun hd => (protocol.bracketCond _).mp hd hb
    rw [if_neg hnd, if_pos hb]
    by_cases hi : protocol.trimChars
        (((protocol.trimChars s).drop 1).dropLast) = []
    · rw [if_pos hi, hi]
      decide
    · rw [if_neg hi]
      exact protocol.parseParts_eq _
  · rw [if_pos ((protocol.bracketCond _).mpr hb), if_neg hb]
